import Mathlib

/-!
Shallow embedding of the poseidontree Merkle-tree engine (src/lib.rs).

The engine maintains a per-context tree as a vector of node levels
(`LOCAL_TREE : Vec<Vec<MerkleNode>>`).  Here that thread-local state is
passed explicitly: each stateful Rust function becomes a Lean function
taking and returning the `Tree` value it mutates.

The Poseidon sponge primitive is an external collaborator (spec section 1:
out of scope, consumed as an abstract two-or-more-ary hash); the tree code
only ever invokes it on two elements (`poseidon_hash(&[a, b])`), so every
definition is parameterised by an abstract binary hash `H : Fp → Fp → Fp`.

Raw child pointers (`*const MerkleNode` into the level below) are modelled
as positional indices into that level (`Option Nat`, `none` for the null
pointer); a chunk starting at pair position `i` has children `2*i` and
`2*i+1`.  Rust panics (`Vec::remove` / indexing on an empty vector) are
modelled with `Option`.
-/

namespace PoseidonTree

/-- The order of the Pasta base field `Fp` used by `mina_curves`
(0x40000000000000000000000000000000224698fc094cf91b992d30ed00000001). -/
def pastaP : Nat :=
  28948022309329048855892746252171976963363056481941560715954676764349967630337

/-- The field element type (`mina_curves::pasta::fields::Fp`). -/
abbrev Fp := ZMod pastaP

instance : Fact (1 < pastaP) := ⟨by norm_num [pastaP]⟩

/-- A node of the tree (`struct MerkleNode`): a hash and two child
references, modelled positionally. -/
structure MerkleNode where
  hash : Fp
  left : Option Nat
  right : Option Nat
deriving DecidableEq

/-- Rust `MerkleNode::new`: a node with no children. -/
def MerkleNode.new (hash : Fp) : MerkleNode :=
  { hash := hash, left := none, right := none }

/-- The per-context level store (`LOCAL_TREE`): level 0 first. -/
abbrev Tree := List (List MerkleNode)

variable (H : Fp → Fp → Fp)

/-- One pass of the `chunks(2)` loop of `build_merkle_tree`: a pair is
combined with the hash, a trailing singleton is carried forward. -/
def hashLevel : List Fp → List Fp
  | [] => []
  | [l] => [l]
  | l :: r :: rest => H l r :: hashLevel rest

theorem hashLevel_length : ∀ l : List Fp,
    (hashLevel H l).length = (l.length + 1) / 2
  | [] => by simp [hashLevel]
  | [_] => by simp [hashLevel]
  | _ :: _ :: rest => by
      simp only [hashLevel, List.length_cons, hashLevel_length rest]
      omega

/-- The `while current_level.len() > 1` loop of `build_merkle_tree`,
followed by the final `current_level[0]` (a panic on an empty level is
`none`). -/
def buildLoop (cur : List Fp) : Option Fp :=
  if _h : cur.length ≤ 1 then cur.head?
  else buildLoop (hashLevel H cur)
termination_by cur.length
decreasing_by rw [hashLevel_length]; omega

/-- Rust `build_merkle_tree` (src/lib.rs lines 146-165): the standalone,
hash-only builder returning just the root element. -/
def build_merkle_tree (data : List Fp) : Option Fp :=
  buildLoop H data

/-- One pass of the `chunks(2)` loop in `build_full_merkle_tree`, with `i`
the position of the first chunk within the new level: a pair becomes a
parent hashing both children, a trailing singleton is carried forward
unchanged with a null `right`. -/
def pairUp (i : Nat) : List MerkleNode → List MerkleNode
  | [] => []
  | [l] => [{ hash := l.hash, left := some (2 * i), right := none }]
  | l :: r :: rest =>
      { hash := H l.hash r.hash, left := some (2 * i), right := some (2 * i + 1) } ::
        pairUp (i + 1) rest

theorem pairUp_length : ∀ (i : Nat) (l : List MerkleNode),
    (pairUp H i l).length = (l.length + 1) / 2
  | _, [] => by simp [pairUp]
  | _, [_] => by simp [pairUp]
  | i, _ :: _ :: rest => by
      simp only [pairUp, List.length_cons, pairUp_length (i + 1) rest]
      omega

/-- The `while levels.last().unwrap().len() > 1` loop of
`build_full_merkle_tree`: the levels pushed above `cur`, in push order. -/
def growFrom (cur : List MerkleNode) : List (List MerkleNode) :=
  if _h : cur.length ≤ 1 then []
  else
    pairUp H 0 cur :: growFrom (pairUp H 0 cur)
termination_by cur.length
decreasing_by rw [pairUp_length]; omega

/-- Rust `build_full_merkle_tree` (src/lib.rs lines 177-228).  It clears the
per-context levels, pushes the leaf level, grows levels until a length-1
level is reached, then POPS the last level off the store and returns that
level's first node (`levels.pop()` / `last_level.remove(0)`).  The first
component is the state left in `LOCAL_TREE`; the second is the returned
root node, `none` when `remove(0)` would panic (empty input). -/
def build_full_merkle_tree (data : List Fp) : Tree × Option MerkleNode :=
  let nodes := data.map MerkleNode.new
  let levels := nodes :: growFrom H nodes
  (levels.dropLast, (levels.getLastD []).head?)

/-- Rust `create_merkle_tree` (src/lib.rs lines 232-240): a null data pointer is
`none`; on a null pointer or a zero count it returns null without touching
the state, otherwise it rebuilds from the first `count` elements. -/
def create_merkle_tree (data : Option (List Fp)) (count : Nat) (state : Tree) :
    Tree × Option MerkleNode :=
  if data.isNone || count == 0 then (state, none)
  else build_full_merkle_tree H ((data.getD []).take count)

/-- Rust `get_root` (src/lib.rs lines 367-376): zero for an empty store,
otherwise the first node of the last level (`none` models the panic of
`[0]` on an empty level). -/
def get_root (levels : Tree) : Option Fp :=
  match levels.getLast? with
  | none => some 0
  | some last => last.head?.map MerkleNode.hash

/-- Rust `clear_levels` (src/lib.rs lines 388-393). -/
def clear_levels (_levels : Tree) : Tree := []

/-- Modelled from the spec: the `leaf_count()` accessor of section 4.1 has
no counterpart in src/lib.rs; per section 3 the leaf count is the length
of level 0, and an empty tree has no leaves. -/
def leaf_count (t : Tree) : Nat := (t.headD []).length

/-- The pushes of one iteration of the `get_merkle_path_impl` loop body:
the sibling index is the parity flip of `current_index` clamped to the
level's last index, then the node itself is pushed when it is the left of
the pair, the sibling is pushed, and the node itself is pushed when it is
the right of the pair. -/
def pathStep (nodes : List MerkleNode) (ci : Nat) : List Fp :=
  let sib := min (if ci % 2 == 0 then ci + 1 else ci - 1) (nodes.length - 1)
  (match nodes[ci]? with
    | some n => if ci < sib then [n.hash] else []
    | none => []) ++
  (match nodes[sib]? with
    | some n => [n.hash]
    | none => []) ++
  (match nodes[ci]? with
    | some n => if sib < ci then [n.hash] else []
    | none => [])

/-- The `for level in 0..tree.len() - 1` loop of `get_merkle_path_impl`,
recursing over the levels below the root: bounds check (`break`), then the
three conditional pushes of `pathStep`, then descend with `ci / 2`. -/
def pathAux : List (List MerkleNode) → Nat → List Fp
  | [], _ => []
  | nodes :: rest, ci =>
      if nodes.length ≤ ci then []
      else pathStep nodes ci ++ pathAux rest (ci / 2)

/-- Rust `get_merkle_path_impl` (src/lib.rs lines 242-280): empty tree yields an
empty path, otherwise the loop walks levels `0 .. tree.len() - 2`. -/
def get_merkle_path_impl (tree : Tree) (leaf_index : Nat) : List Fp :=
  if tree = [] then [] else pathAux tree.dropLast leaf_index

/-- At every level visited during extraction the current index is in
bounds and the level's length is even (the evenly-paired condition of the
path-length property). -/
def evenChain : List (List MerkleNode) → Nat → Bool
  | [], _ => true
  | nodes :: rest, ci =>
      decide (ci < nodes.length) && decide (nodes.length % 2 = 0) &&
        evenChain rest (ci / 2)

/-- One pass of the `chunks(2)` loop of `add_one_leaf`'s rebuild phase; it
differs from the builder's in that a trailing singleton's `right` pointer
is set to its sole child (`&chunk[0]`) instead of null. -/
def pairUpAdd (i : Nat) : List MerkleNode → List MerkleNode
  | [] => []
  | [l] => [{ hash := l.hash, left := some (2 * i), right := some (2 * i) }]
  | l :: r :: rest =>
      { hash := H l.hash r.hash, left := some (2 * i), right := some (2 * i + 1) } ::
        pairUpAdd (i + 1) rest

/-- The `while level_index > 0` loop of `add_one_leaf`: with `li` the
current `level_index`, each pass overwrites `levels[li - 1]` with the
re-paired `levels[li]` and decrements. -/
def rebuildDown (levels : Tree) : Nat → Tree
  | 0 => levels
  | li + 1 =>
      rebuildDown (levels.set li (pairUpAdd H 0 (levels.getD (li + 1) []))) li

/-- Rust `add_one_leaf` (src/lib.rs lines 331-365): on an empty store, push a
single-leaf level; otherwise pop the LAST level, push the new leaf node
onto it, push it back, and run the downward rebuild loop starting at
`levels.len() - 1`. -/
def add_one_leaf (new_leaf : Fp) (levels : Tree) : Tree :=
  match levels.getLast? with
  | none => [[MerkleNode.new new_leaf]]
  | some cur =>
      let levels1 := levels.dropLast ++ [cur ++ [MerkleNode.new new_leaf]]
      rebuildDown H levels1 (levels1.length - 1)

/-! ## Helper lemmas -/

theorem pairUp_cons_exists (i : Nat) (a : MerkleNode) (t : List MerkleNode) :
    ∃ b s, pairUp H i (a :: t) = b :: s := by
  match t with
  | [] => exact ⟨_, _, rfl⟩
  | _ :: _ => exact ⟨_, _, rfl⟩

theorem pairUpAdd_cons_exists (i : Nat) (a : MerkleNode) (t : List MerkleNode) :
    ∃ b s, pairUpAdd H i (a :: t) = b :: s := by
  match t with
  | [] => exact ⟨_, _, rfl⟩
  | _ :: _ => exact ⟨_, _, rfl⟩

theorem pairUp_getLast_odd : ∀ (i : Nat) (L : List MerkleNode),
    L.length % 2 = 1 →
    ((pairUp H i L).getLast?).map MerkleNode.hash = (L.getLast?).map MerkleNode.hash
  | _, [], h => by simp at h
  | _, [_], _ => by simp [pairUp]
  | _, [_, _], h => by simp at h
  | i, l :: r :: a :: t, h => by
      have hr : (a :: t).length % 2 = 1 := by
        simp only [List.length_cons] at h ⊢; omega
      obtain ⟨b, s, hbs⟩ := pairUp_cons_exists H i.succ a t
      have ih := pairUp_getLast_odd (i + 1) (a :: t) hr
      simp only [pairUp, Nat.succ_eq_add_one] at hbs ⊢
      rw [hbs, List.getLast?_cons_cons, ← hbs, ih, List.getLast?_cons_cons,
        List.getLast?_cons_cons]

theorem pairUpAdd_getLast_odd : ∀ (i : Nat) (L : List MerkleNode),
    L.length % 2 = 1 →
    ((pairUpAdd H i L).getLast?).map MerkleNode.hash = (L.getLast?).map MerkleNode.hash
  | _, [], h => by simp at h
  | _, [_], _ => by simp [pairUpAdd]
  | _, [_, _], h => by simp at h
  | i, l :: r :: a :: t, h => by
      have hr : (a :: t).length % 2 = 1 := by
        simp only [List.length_cons] at h ⊢; omega
      obtain ⟨b, s, hbs⟩ := pairUpAdd_cons_exists H i.succ a t
      have ih := pairUpAdd_getLast_odd (i + 1) (a :: t) hr
      simp only [pairUpAdd, Nat.succ_eq_add_one] at hbs ⊢
      rw [hbs, List.getLast?_cons_cons, ← hbs, ih, List.getLast?_cons_cons,
        List.getLast?_cons_cons]

theorem pairUp_map_hash : ∀ (i : Nat) (L : List MerkleNode),
    (pairUp H i L).map MerkleNode.hash = hashLevel H (L.map MerkleNode.hash)
  | _, [] => by simp [pairUp, hashLevel]
  | _, [_] => by simp [pairUp, hashLevel]
  | i, _ :: _ :: rest => by
      simp [pairUp, hashLevel, pairUp_map_hash (i + 1) rest]

theorem buildLoop_isSome (cur : List Fp) (hne : cur ≠ []) :
    (buildLoop H cur).isSome := by
  rw [buildLoop]
  split
  · cases cur with
    | nil => exact absurd rfl hne
    | cons a t => simp
  · next h1 =>
      apply buildLoop_isSome
      have hl := hashLevel_length H cur
      intro hn
      rw [hn] at hl
      simp at hl
      omega
termination_by cur.length
decreasing_by rw [hashLevel_length]; omega

theorem growFrom_buildLoop (cur : List MerkleNode) :
    (((cur :: growFrom H cur).getLastD []).head?).map MerkleNode.hash =
      buildLoop H (cur.map MerkleNode.hash) := by
  by_cases hle : cur.length ≤ 1
  · rw [growFrom, buildLoop]
    simp [hle]
  · rw [growFrom, buildLoop]
    rw [dif_neg hle, dif_neg (by simpa using hle)]
    have ih := growFrom_buildLoop (pairUp H 0 cur)
    rw [← pairUp_map_hash, ← ih]
    simp [List.getLast?_cons_cons]
termination_by cur.length
decreasing_by rw [pairUp_length]; omega

theorem pathStep_length_le (nodes : List MerkleNode) (ci : Nat) :
    (pathStep nodes ci).length ≤ 2 := by
  simp only [pathStep]
  set s := min (if ci % 2 == 0 then ci + 1 else ci - 1) (nodes.length - 1) with hs
  rcases Nat.lt_trichotomy ci s with h | h | h
  · cases hci : nodes[ci]? <;> cases hsb : nodes[s]? <;>
      simp [h, Nat.lt_asymm h]
  · cases hci : nodes[ci]? <;> cases hsb : nodes[s]? <;>
      simp [h, Nat.lt_irrefl]
  · cases hci : nodes[ci]? <;> cases hsb : nodes[s]? <;>
      simp [h, Nat.lt_asymm h]

theorem pathStep_length_even (nodes : List MerkleNode) (ci : Nat)
    (h1 : ci < nodes.length) (h2 : nodes.length % 2 = 0) :
    (pathStep nodes ci).length = 2 := by
  simp only [pathStep]
  rcases Nat.mod_two_eq_zero_or_one ci with hp | hp
  · have hc : (ci % 2 == 0) = true := by simp [hp]
    have hmin : min (if ci % 2 == 0 then ci + 1 else ci - 1) (nodes.length - 1) =
        ci + 1 := by
      rw [hc]
      have hred : (if (true = true) then ci + 1 else ci - 1) = ci + 1 := if_pos rfl
      rw [hred]
      omega
    rw [hmin]
    have hci : nodes[ci]? = some nodes[ci] := List.getElem?_eq_getElem h1
    have hsb : nodes[ci + 1]? = some (nodes.get ⟨ci + 1, by omega⟩) :=
      List.getElem?_eq_getElem (by omega)
    have t1 : ci < ci + 1 := by omega
    have t2 : ¬ ci + 1 < ci := by omega
    simp [hci, hsb, t1, t2]
  · have hc : (ci % 2 == 0) = false := by simp [hp]
    have hmin : min (if ci % 2 == 0 then ci + 1 else ci - 1) (nodes.length - 1) =
        ci - 1 := by
      rw [hc]
      have hred : (if (false = true) then ci + 1 else ci - 1) = ci - 1 :=
        if_neg (by simp)
      rw [hred]
      omega
    rw [hmin]
    have hci : nodes[ci]? = some nodes[ci] := List.getElem?_eq_getElem h1
    have hsb : nodes[ci - 1]? = some (nodes.get ⟨ci - 1, by omega⟩) :=
      List.getElem?_eq_getElem (by omega)
    have t1 : ¬ ci < ci - 1 := by omega
    have t2 : ci - 1 < ci := by omega
    simp [hci, hsb, t1, t2]

theorem pathAux_length_le : ∀ (levels : List (List MerkleNode)) (ci : Nat),
    (pathAux levels ci).length ≤ 2 * levels.length
  | [], _ => by simp [pathAux]
  | nodes :: rest, ci => by
      have ih := pathAux_length_le rest (ci / 2)
      by_cases hb : nodes.length ≤ ci
      · simp [pathAux, hb]
      · have hstep := pathStep_length_le nodes ci
        simp only [pathAux, if_neg hb, List.length_append, List.length_cons]
        omega

theorem pathAux_length_even : ∀ (levels : List (List MerkleNode)) (ci : Nat),
    evenChain levels ci = true →
    (pathAux levels ci).length = 2 * levels.length
  | [], _, _ => by simp [pathAux]
  | nodes :: rest, ci, h => by
      have hh : ci < nodes.length ∧ nodes.length % 2 = 0 ∧
          evenChain rest (ci / 2) = true := by
        simpa [evenChain, and_assoc] using h
      have ih := pathAux_length_even rest (ci / 2) hh.2.2
      have hstep := pathStep_length_even nodes ci hh.1 hh.2.1
      simp only [pathAux, if_neg (Nat.not_le.mpr hh.1), List.length_append,
        List.length_cons]
      omega

theorem pathAux_append_short : ∀ (pre : List (List MerkleNode))
    (nodes : List MerkleNode) (rest : List (List MerkleNode)) (ci : Nat),
    nodes.length ≤ ci / 2 ^ pre.length →
    pathAux (pre ++ nodes :: rest) ci = pathAux pre ci
  | [], nodes, rest, ci, h => by
      simp only [List.nil_append, pathAux]
      rw [if_pos (by simpa using h)]
  | l :: pre, nodes, rest, ci, h => by
      have h' : nodes.length ≤ ci / 2 / 2 ^ pre.length := by
        rw [Nat.div_div_eq_div_mul, ← pow_succ']
        simpa using h
      simp only [List.cons_append, pathAux]
      by_cases hb : l.length ≤ ci
      · rw [if_pos hb, if_pos hb]
      · rw [if_neg hb, if_neg hb]
        exact congrArg (fun t => pathStep l ci ++ t)
          (pathAux_append_short pre nodes rest (ci / 2) h')

/-! ## Claim theorems -/

/-- C1: the build/append equivalence fails on the code.  For the leaf
sequence `L = [1, 2]` and split point `k = 1`, the root read through the
root accessor after `build([1, 2])` is the leaf `1` (the root level was
popped off the store by `build_full_merkle_tree`), while `build([1])`
followed by `append(2)` yields root `2`; the two disagree for every hash
function. -/
theorem build_append_root_divergence (H : Fp → Fp → Fp) :
    get_root ((build_full_merkle_tree H [1, 2]).1) = some 1 ∧
    get_root (add_one_leaf H 2 ((build_full_merkle_tree H [1]).1)) = some 2 ∧
    (1 : Fp) ≠ 2 := by
  refine ⟨?_, ?_, by decide⟩
  · simp [build_full_merkle_tree, growFrom, pairUp, MerkleNode.new, get_root]
  · simp [build_full_merkle_tree, growFrom, MerkleNode.new, add_one_leaf, get_root]

/-- C2: the invariant that a non-empty level store ends in a singleton
level fails after `create_merkle_tree`: building from `[1, 2]` leaves a
non-empty store whose last level has two nodes (the singleton root level
was popped off by `build_full_merkle_tree`). -/
theorem last_level_singleton_violated (H : Fp → Fp → Fp) :
    (create_merkle_tree H (some [1, 2]) 2 []).1 ≠ [] ∧
    (((create_merkle_tree H (some [1, 2]) 2 []).1).getLastD []).length = 2 := by
  constructor <;>
    simp [create_merkle_tree, build_full_merkle_tree, growFrom, pairUp, MerkleNode.new]

/-- C3: a single-leaf build does not make the root accessor return the
leaf.  `build_full_merkle_tree` on `[1]` pops its only level off the
store, leaving it empty, so `get_root` returns the additive identity `0`
rather than the leaf `1`. -/
theorem single_leaf_root_divergence (H : Fp → Fp → Fp) :
    (build_full_merkle_tree H [1]).1 = [] ∧
    get_root ((build_full_merkle_tree H [1]).1) = some 0 ∧
    (1 : Fp) ≠ 0 := by
  refine ⟨?_, ?_, by decide⟩ <;>
    simp [build_full_merkle_tree, growFrom, MerkleNode.new, get_root]

/-- C7: clearing resets the store to no levels, the root accessor then
returns the field's additive identity, the leaf count is zero, and the
root of any empty store is the additive identity. -/
theorem clear_resets_to_identity (s : Tree) :
    clear_levels s = [] ∧
    get_root (clear_levels s) = some 0 ∧
    leaf_count (clear_levels s) = 0 ∧
    get_root [] = some 0 := by
  refine ⟨rfl, ?_, rfl, ?_⟩ <;> simp [clear_levels, get_root, leaf_count]

/-- C8: `create_merkle_tree` on a null data pointer or a zero count
returns null and hands back the caller's tree state unmodified. -/
theorem create_invalid_input_unmodified (H : Fp → Fp → Fp)
    (data : Option (List Fp)) (count : Nat) (state : Tree)
    (h : (data.isNone || count == 0) = true) :
    create_merkle_tree H data count state = (state, none) := by
  simp [create_merkle_tree, h]

/-- Witness for C8 at a concrete invalid input: a null data pointer with a
non-zero count leaves a one-level state untouched and returns null. -/
theorem create_invalid_input_unmodified_witness :
    ((none : Option (List Fp)).isNone || 5 == 0) = true ∧
    create_merkle_tree (fun a _ => a) none 5 [[MerkleNode.new 7]] =
      ([[MerkleNode.new 7]], none) :=
  ⟨by decide, create_invalid_input_unmodified (fun a _ => a) none 5 [[MerkleNode.new 7]]
    (by decide)⟩

/-- C9: appending to an empty tree is NOT equivalent to building from a
single-element batch.  `append(1)` on the empty store leaves one
single-leaf level with root `1`, while `build([1])` leaves an EMPTY store
(its only level is popped) with root `0`; both state and root disagree. -/
theorem append_empty_vs_single_build_divergence (H : Fp → Fp → Fp) :
    add_one_leaf H 1 [] = [[MerkleNode.new 1]] ∧
    (build_full_merkle_tree H [1]).1 = [] ∧
    get_root (add_one_leaf H 1 []) = some 1 ∧
    get_root ((build_full_merkle_tree H [1]).1) = some 0 ∧
    (1 : Fp) ≠ 0 := by
  refine ⟨?_, ?_, ?_, ?_, by decide⟩ <;>
    simp [add_one_leaf, build_full_merkle_tree, growFrom, MerkleNode.new, get_root]

/-- C4: for every level of odd length paired up during build
(`build_full_merkle_tree`) or append (`add_one_leaf`), the trailing
carried-forward node of the next level has a hash exactly equal to its
sole child's hash — the equality holds for every hash function `H`, so no
hash invocation enters it. -/
theorem odd_carry_hash (H : Fp → Fp → Fp) (i : Nat) (L : List MerkleNode)
    (h : L.length % 2 = 1) :
    ((pairUp H i L).getLast?).map MerkleNode.hash = (L.getLast?).map MerkleNode.hash ∧
    ((pairUpAdd H i L).getLast?).map MerkleNode.hash = (L.getLast?).map MerkleNode.hash :=
  ⟨pairUp_getLast_odd H i L h, pairUpAdd_getLast_odd H i L h⟩

/-- Witness for C4 at a concrete three-node level. -/
theorem odd_carry_hash_witness :
    ([MerkleNode.new 1, MerkleNode.new 2, MerkleNode.new 3].length % 2 = 1) ∧
    (((pairUp (fun a b => a + b) 0
        [MerkleNode.new 1, MerkleNode.new 2, MerkleNode.new 3]).getLast?).map
          MerkleNode.hash =
      (([MerkleNode.new 1, MerkleNode.new 2, MerkleNode.new 3] :
        List MerkleNode).getLast?).map MerkleNode.hash ∧
    ((pairUpAdd (fun a b => a + b) 0
        [MerkleNode.new 1, MerkleNode.new 2, MerkleNode.new 3]).getLast?).map
          MerkleNode.hash =
      (([MerkleNode.new 1, MerkleNode.new 2, MerkleNode.new 3] :
        List MerkleNode).getLast?).map MerkleNode.hash) :=
  ⟨by decide,
    odd_carry_hash (fun a b => a + b) 0
      [MerkleNode.new 1, MerkleNode.new 2, MerkleNode.new 3] (by decide)⟩

/-- C10: the node-based builder refines the hash-only builder — on every
non-empty input, `build_full_merkle_tree` returns a node whose hash is
exactly the field element returned by `build_merkle_tree`. -/
theorem build_full_refines_build (H : Fp → Fp → Fp) (data : List Fp)
    (hne : data ≠ []) :
    ∃ r, (build_full_merkle_tree H data).2 = some r ∧
      build_merkle_tree H data = some r.hash := by
  have h1 := growFrom_buildLoop H (data.map MerkleNode.new)
  have h2 : (build_full_merkle_tree H data).2 =
      ((data.map MerkleNode.new ::
        growFrom H (data.map MerkleNode.new)).getLastD []).head? := rfl
  have h3 : (data.map MerkleNode.new).map MerkleNode.hash = data := by
    rw [List.map_map]
    have hcomp : MerkleNode.hash ∘ MerkleNode.new = id := rfl
    rw [hcomp, List.map_id]
  rw [h3] at h1
  have h4 := buildLoop_isSome H data hne
  obtain ⟨x, hx⟩ := Option.isSome_iff_exists.mp h4
  rw [hx] at h1
  obtain ⟨r, hr, hrx⟩ := Option.map_eq_some'.mp h1
  exact ⟨r, by rw [h2, hr], by rw [build_merkle_tree, hx, hrx]⟩

/-- Witness for C10 on the non-empty input `[1, 2, 3]`. -/
theorem build_full_refines_build_witness :
    ([1, 2, 3] : List Fp) ≠ [] ∧
    ∃ r, (build_full_merkle_tree (fun a b => a + b) [1, 2, 3]).2 = some r ∧
      build_merkle_tree (fun a b => a + b) [1, 2, 3] = some r.hash :=
  ⟨by simp, build_full_refines_build (fun a b => a + b) [1, 2, 3] (by simp)⟩

/-- C5: for a tree of height `h = tree.length - 1` (levels above the leaf
level), the extracted path has length at most `2 * h`, and exactly `2 * h`
when every level visited during extraction is evenly paired with the
current index in bounds (`evenChain`). -/
theorem path_length_bound (tree : Tree) (i : Nat) :
    (get_merkle_path_impl tree i).length ≤ 2 * (tree.length - 1) ∧
    (evenChain tree.dropLast i = true →
      (get_merkle_path_impl tree i).length = 2 * (tree.length - 1)) := by
  cases tree with
  | nil => simp [get_merkle_path_impl, pathAux]
  | cons t ts =>
      have hd : ((t :: ts : Tree)).dropLast.length = (t :: ts : Tree).length - 1 := by
        simp
      constructor
      · have hle := pathAux_length_le ((t :: ts : Tree).dropLast) i
        rw [hd] at hle
        simpa [get_merkle_path_impl] using hle
      · intro he
        have heq := pathAux_length_even ((t :: ts : Tree).dropLast) i he
        rw [hd] at heq
        simpa [get_merkle_path_impl] using heq

/-- Witness for C5: a two-leaf tree with its root level, leaf index 0; the
leaf level is evenly paired and the path has length exactly 2. -/
theorem path_length_bound_witness :
    evenChain ([[MerkleNode.new 1, MerkleNode.new 2],
      [MerkleNode.new 3]] : Tree).dropLast 0 = true ∧
    (get_merkle_path_impl
      [[MerkleNode.new 1, MerkleNode.new 2], [MerkleNode.new 3]] 0).length =
      2 * (([[MerkleNode.new 1, MerkleNode.new 2],
        [MerkleNode.new 3]] : Tree).length - 1) :=
  ⟨by decide,
    (path_length_bound [[MerkleNode.new 1, MerkleNode.new 2],
      [MerkleNode.new 3]] 0).2 (by decide)⟩

/-- C6: path extraction on an empty tree returns an empty path; a leaf
index at or beyond the first level's length terminates at once with the
empty partial path; and a level shorter than the index reached at its
depth makes extraction return exactly the partial path accumulated over
the earlier levels, with all later levels ignored. -/
theorem path_truncation (tree : Tree) (i ci : Nat)
    (pre : List (List MerkleNode)) (nodes : List MerkleNode)
    (rest : List (List MerkleNode))
    (h : nodes.length ≤ ci / 2 ^ pre.length) :
    get_merkle_path_impl [] i = [] ∧
    (tree ≠ [] → (tree.headD []).length ≤ i → get_merkle_path_impl tree i = []) ∧
    pathAux (pre ++ nodes :: rest) ci = pathAux pre ci := by
  refine ⟨rfl, ?_, pathAux_append_short pre nodes rest ci h⟩
  intro hne hlen
  cases tree with
  | nil => exact absurd rfl hne
  | cons t ts =>
      simp only [List.headD_cons] at hlen
      cases ts with
      | nil => simp [get_merkle_path_impl, pathAux]
      | cons t1 ts1 => simp [get_merkle_path_impl, pathAux, hlen]

/-- Witness for C6: an out-of-range leaf index on a two-level tree yields
the empty path, and a too-short (empty) second level truncates the walk to
the first level alone. -/
theorem path_truncation_witness :
    get_merkle_path_impl [] 5 = [] ∧
    get_merkle_path_impl [[MerkleNode.new 1], [MerkleNode.new 2]] 5 = [] ∧
    pathAux ([[MerkleNode.new 1]] ++ [] :: []) 4 = pathAux [[MerkleNode.new 1]] 4 :=
  ⟨(path_truncation [[MerkleNode.new 1], [MerkleNode.new 2]] 5 4
      [[MerkleNode.new 1]] [] [] (by decide)).1,
   (path_truncation [[MerkleNode.new 1], [MerkleNode.new 2]] 5 4
      [[MerkleNode.new 1]] [] [] (by decide)).2.1 (by decide) (by decide),
   (path_truncation [[MerkleNode.new 1], [MerkleNode.new 2]] 5 4
      [[MerkleNode.new 1]] [] [] (by decide)).2.2⟩

end PoseidonTree
